import Mathlib

/-!
Shallow embedding of `crates/goose/src/config/extensions.rs`: extension and
extension-group state management over a key-value configuration store.

The configuration store is modelled as explicit state (`Store`) holding the
raw JSON values of the two storage keys, and every operation additionally
returns the list of store events (reads/writes) it performs, so that frame
and "no write happened" properties can be stated.  JSON values are modelled
by the inductive `Json`; `HashMap` is modelled by an association list with
insert-or-replace semantics.
-/

namespace GooseExtensions

/-- JSON values, embedding `serde_json::Value` (numbers are not needed by
any code path modelled here beyond identity, so they carry an `Int`). -/
inductive Json where
  | null : Json
  | bool (b : Bool) : Json
  | str (s : String) : Json
  | num (n : Int) : Json
  | arr (elems : List Json) : Json
  | obj (fields : List (String × Json)) : Json
deriving Repr

/-- First value stored under key `k` in an association list (the lookup of
`HashMap`/`serde_json::Map`, whose keys are unique). -/
def lookupKey {α : Type} (k : String) : List (String × α) → Option α
  | [] => none
  | (k1, v) :: rest => if k1 = k then some v else lookupKey k rest

/-- Replace the value stored under key `k` where present, leaving the list
unchanged otherwise (the effect of mutating through `get_mut`). -/
def setKey {α : Type} (k : String) (v : α) : List (String × α) → List (String × α)
  | [] => []
  | (k1, v1) :: rest => if k1 = k then (k1, v) :: rest else (k1, v1) :: setKey k v rest

/-- Insert-or-replace under key `k` (the semantics of `HashMap::insert` and
`serde_json::Map::insert`). -/
def insertKey {α : Type} (k : String) (v : α) (m : List (String × α)) : List (String × α) :=
  if (lookupKey k m).isSome then setKey k v m else m ++ [(k, v)]

/-- Embedding of `name_to_key`: drop every whitespace character of the name,
then lower-case the result (Rust `char::is_whitespace` / `to_lowercase`
embedded as Lean's `Char.isWhitespace` / `Char.toLower`). -/
def name_to_key (name : String) : String :=
  String.mk ((name.data.filter fun c => !c.isWhitespace).map Char.toLower)

theorem toLower_fixed_of_shifted (n : Nat) (h1 : 65 ≤ n) (h2 : n ≤ 90) :
    (Char.ofNat (n + 32)).toLower = Char.ofNat (n + 32) := by
  interval_cases n <;> decide

theorem toLower_toLower (c : Char) : c.toLower.toLower = c.toLower := by
  by_cases h : c.toNat ≥ 65 ∧ c.toNat ≤ 90
  · have h1 : c.toLower = Char.ofNat (c.toNat + 32) := by
      unfold Char.toLower
      exact if_pos h
    rw [h1]
    exact toLower_fixed_of_shifted c.toNat h.1 h.2
  · have h1 : c.toLower = c := by
      unfold Char.toLower
      exact if_neg h
    rw [h1, h1]

theorem isWhitespace_ofNat_shifted (n : Nat) (h1 : 65 ≤ n) (h2 : n ≤ 90) :
    (Char.ofNat (n + 32)).isWhitespace = false := by
  interval_cases n <;> decide

theorem toLower_isWhitespace (c : Char) (h : c.isWhitespace = false) :
    c.toLower.isWhitespace = false := by
  by_cases hc : c.toNat ≥ 65 ∧ c.toNat ≤ 90
  · have h1 : c.toLower = Char.ofNat (c.toNat + 32) := by
      unfold Char.toLower
      exact if_pos hc
    rw [h1]
    exact isWhitespace_ofNat_shifted c.toNat hc.1 hc.2
  · have h1 : c.toLower = c := by
      unfold Char.toLower
      exact if_neg hc
    rw [h1]
    exact h

theorem isUpper_ofNat_shifted (n : Nat) (h1 : 65 ≤ n) (h2 : n ≤ 90) :
    (Char.ofNat (n + 32)).isUpper = false := by
  interval_cases n <;> decide

theorem isUpper_eq_toNat_range (c : Char) :
    c.isUpper = (decide (65 ≤ c.toNat) && decide (c.toNat ≤ 90)) := by
  rcases c with ⟨v, hv⟩
  simp [Char.isUpper, Char.toNat, UInt32.le_def, BitVec.le_def, UInt32.toNat]

theorem toLower_isUpper (c : Char) : c.toLower.isUpper = false := by
  by_cases hc : c.toNat ≥ 65 ∧ c.toNat ≤ 90
  · have h1 : c.toLower = Char.ofNat (c.toNat + 32) := by
      unfold Char.toLower
      exact if_pos hc
    rw [h1]
    exact isUpper_ofNat_shifted c.toNat hc.1 hc.2
  · have h1 : c.toLower = c := by
      unfold Char.toLower
      exact if_neg hc
    rw [h1, isUpper_eq_toNat_range]
    simp only [Bool.and_eq_false_iff, decide_eq_false_iff_not]
    omega

/-- Modelled from the spec: a built-in platform extension definition, "a
fixed, enumerable list of `{name, description}` pairs" (the registry
`PLATFORM_EXTENSIONS` lives outside this crate's sources); the list itself
is passed as a parameter `ps : List (String × PlatformExtensionDef)` pairing
each registry key with its definition. -/
structure PlatformExtensionDef where
  name : String
  description : String
deriving Repr, DecidableEq

/-- Modelled from the spec: `ExtensionConfig` is an externally defined
tagged value exposing `name()` and `key()`; the code only constructs its
`Platform` variant (name, description, `bundled`, `available_tools`), so the
model keeps that variant exactly and folds every other variant into a
`Custom` payload with a name and an optional description (the field the
loader default-fills). -/
inductive ExtensionConfig where
  | Platform (name : String) (description : String) (bundled : Option Bool)
      (availableTools : List String) : ExtensionConfig
  | Custom (name : String) (description : Option String) : ExtensionConfig
deriving Repr, DecidableEq

/-- Display name of a config payload. -/
def ExtensionConfig.name : ExtensionConfig → String
  | .Platform n _ _ _ => n
  | .Custom n _ => n

/-- Canonical storage key of a config payload, derived from its name. -/
def ExtensionConfig.key (c : ExtensionConfig) : String :=
  name_to_key c.name

/-- Embedding of `ExtensionEntry`: an enabled flag plus a flattened config. -/
structure ExtensionEntry where
  enabled : Bool
  config : ExtensionConfig
deriving Repr, DecidableEq

/-- Embedding of `ExtensionGroup`: a display name and ordered member keys. -/
structure ExtensionGroup where
  name : String
  extension_keys : List String
deriving Repr, DecidableEq

/-- Embedding of `ExtensionGroupState`. -/
inductive ExtensionGroupState where
  | Enabled : ExtensionGroupState
  | Disabled : ExtensionGroupState
  | Mixed : ExtensionGroupState
deriving Repr, DecidableEq

/-- Extensions map: canonical key to entry (`HashMap<String, ExtensionEntry>`). -/
abbrev ExtensionsMap : Type := List (String × ExtensionEntry)

/-- Groups map: canonical key to group (`HashMap<String, ExtensionGroup>`). -/
abbrev ExtensionGroupsMap : Type := List (String × ExtensionGroup)

/-- Modelled from the spec: serde serialization of an `ExtensionEntry` with
its config flattened alongside `enabled` — a variant tag, the name, the
description when present, and the platform-only fields. -/
def serializeConfigFields : ExtensionConfig → List (String × Json)
  | .Platform n d b tools =>
      [("type", .str "platform"), ("name", .str n), ("description", .str d),
       ("bundled", match b with | some x => .bool x | none => .null),
       ("available_tools", .arr (tools.map .str))]
  | .Custom n d =>
      [("type", .str "custom"), ("name", .str n)] ++
        (match d with | some s => [("description", .str s)] | none => [])

/-- Serialized form of one entry (`enabled` plus the flattened config). -/
def serializeEntry (e : ExtensionEntry) : Json :=
  .obj (("enabled", .bool e.enabled) :: serializeConfigFields e.config)

/-- Serialized form of a whole extensions map (`serde_json::to_value`). -/
def serializeExtensionsMap (m : ExtensionsMap) : Json :=
  .obj (m.map fun p => (p.1, serializeEntry p.2))

/-- Required boolean field. -/
def asBool : Option Json → Option Bool
  | some (.bool b) => some b
  | _ => none

/-- Required string field. -/
def asStr : Option Json → Option String
  | some (.str s) => some s
  | _ => none

/-- Optional boolean field (`Option<bool>`: missing or null is `none`). -/
def asOptBool : Option Json → Option (Option Bool)
  | none => some none
  | some .null => some none
  | some (.bool b) => some (some b)
  | _ => none

/-- Optional string field (`Option<String>`: missing or null is `none`). -/
def asOptStr : Option Json → Option (Option String)
  | none => some none
  | some .null => some none
  | some (.str s) => some (some s)
  | _ => none

/-- String element of an array field. -/
def asStrElem : Json → Option String
  | .str s => some s
  | _ => none

/-- String elements of a JSON array, all required to be strings. -/
def strElems : List Json → Option (List String)
  | [] => some []
  | v :: rest => do
      let s ← asStrElem v
      let ss ← strElems rest
      pure (s :: ss)

/-- Required array-of-strings field (`Vec<String>`). -/
def asStrList : Option Json → Option (List String)
  | some (.arr xs) => strElems xs
  | _ => none

/-- Modelled from the spec: `serde_json::from_value::<ExtensionEntry>` for
the modelled config — requires `enabled`, the variant tag, and the name;
the platform variant further requires `description` and `available_tools`
and reads the optional `bundled`. -/
def parseEntry (v : Json) : Option ExtensionEntry :=
  match v with
  | .obj fs => do
      let enabled ← asBool (lookupKey "enabled" fs)
      let tag ← asStr (lookupKey "type" fs)
      let nm ← asStr (lookupKey "name" fs)
      if tag = "platform" then
        let d ← asStr (lookupKey "description" fs)
        let b ← asOptBool (lookupKey "bundled" fs)
        let tools ← asStrList (lookupKey "available_tools" fs)
        pure ⟨enabled, .Platform nm d b tools⟩
      else if tag = "custom" then
        let d ← asOptStr (lookupKey "description" fs)
        pure ⟨enabled, .Custom nm d⟩
      else none
  | _ => none

/-- Description patch of `get_extensions_map` step 3: on an object whose
`description` field is absent or null, insert the empty string. -/
def patchDescription (v : Json) : Json :=
  match v with
  | .obj fs =>
      match lookupKey "description" fs with
      | some .null => .obj (insertKey "description" (.str "") fs)
      | none => .obj (insertKey "description" (.str "") fs)
      | some _ => .obj fs
  | other => other

/-- One stored key/value pair of the extensions object, patched then parsed. -/
def parseEntryPatched (v : Json) : Option ExtensionEntry :=
  parseEntry (patchDescription v)

/-- Per-pair loop of `get_extensions_map`: patch and parse each pair,
inserting successes and skipping failures. -/
def parseExtensionsObjAux : List (String × Json) → ExtensionsMap → ExtensionsMap
  | [], m => m
  | (k, v) :: rest, m =>
      match parseEntryPatched v with
      | some e => parseExtensionsObjAux rest (insertKey k e m)
      | none => parseExtensionsObjAux rest m

/-- Map built from a stored extensions object before the platform merge. -/
def parseExtensionsObj (fields : List (String × Json)) : ExtensionsMap :=
  parseExtensionsObjAux fields []

/-- Synthesized entry inserted by the platform merge. -/
def platformEntry (pd : PlatformExtensionDef) : ExtensionEntry :=
  ⟨true, .Platform pd.name pd.description (some true) []⟩

/-- Loop body of the platform merge: insert each platform extension whose
key is absent from the map. -/
def mergePlatformAux (ps : List (String × PlatformExtensionDef)) (m : ExtensionsMap) :
    ExtensionsMap :=
  match ps with
  | [] => m
  | (nm, pd) :: rest =>
      if (lookupKey nm m).isSome then mergePlatformAux rest m
      else mergePlatformAux rest (insertKey nm (platformEntry pd) m)

/-- Platform merge of `get_extensions_map`: only a non-empty map receives
the missing platform extensions. -/
def mergePlatform (ps : List (String × PlatformExtensionDef)) (m : ExtensionsMap) :
    ExtensionsMap :=
  if m.isEmpty then m else mergePlatformAux ps m

/-- Map parsed from the raw stored value: a JSON object is parsed pairwise,
any other shape is discarded for an empty map. -/
def baseExtensionsMap (raw : Json) : ExtensionsMap :=
  match raw with
  | .obj fields => parseExtensionsObj fields
  | _ => []

/-- Pure core of `get_extensions_map` on the raw stored value. -/
def loadExtensionsValue (ps : List (String × PlatformExtensionDef)) (raw : Json) :
    ExtensionsMap :=
  mergePlatform ps (baseExtensionsMap raw)

/-- Modelled from the spec: parsing one stored group value
(`serde_json::from_value::<ExtensionGroup>`) — requires `name` and
`extension_keys`. -/
def parseGroup (v : Json) : Option ExtensionGroup :=
  match v with
  | .obj fs => do
      let nm ← asStr (lookupKey "name" fs)
      let keys ← asStrList (lookupKey "extension_keys" fs)
      pure ⟨nm, keys⟩
  | _ => none

/-- Per-pair loop of `get_extension_groups_map`: parse each pair, inserting
successes and skipping failures. -/
def parseGroupsObjAux : List (String × Json) → ExtensionGroupsMap → ExtensionGroupsMap
  | [], m => m
  | (k, v) :: rest, m =>
      match parseGroup v with
      | some g => parseGroupsObjAux rest (insertKey k g m)
      | none => parseGroupsObjAux rest m

/-- Pure core of `get_extension_groups_map` on the raw stored value. -/
def loadGroupsValue (raw : Json) : ExtensionGroupsMap :=
  match raw with
  | .obj fields => parseGroupsObjAux fields []
  | _ => []

/-- Serialized form of a whole groups map. -/
def serializeGroup (g : ExtensionGroup) : Json :=
  .obj [("name", .str g.name), ("extension_keys", .arr (g.extension_keys.map .str))]

/-- Serialized groups map (`serde_json::to_value`). -/
def serializeGroupsMap (m : ExtensionGroupsMap) : Json :=
  .obj (m.map fun p => (p.1, serializeGroup p.2))

/-- Raw stored values of the two storage keys used by this module; `none`
models a failed or missing `get_param` read (the code falls back to an
empty object in that case). -/
structure Store where
  extensions : Option Json
  extensionGroups : Option Json

/-- Store events performed by an operation, in order: reads and writes of
the `extensions` and `extension_groups` storage keys. -/
inductive Event where
  | getExtensions : Event
  | setExtensions (v : Json) : Event
  | getGroups : Event
  | setGroups (v : Json) : Event

/-- Embedding of `get_extensions_map`: read the raw value (empty object on
failure), parse tolerantly, merge platform extensions. -/
def get_extensions_map (ps : List (String × PlatformExtensionDef)) (s : Store) :
    ExtensionsMap × List Event :=
  (loadExtensionsValue ps (s.extensions.getD (.obj [])), [.getExtensions])

/-- Embedding of `save_extensions_map`: serialize and write the whole map
under the extensions key. -/
def save_extensions_map (m : ExtensionsMap) (s : Store) : Store × List Event :=
  (⟨some (serializeExtensionsMap m), s.extensionGroups⟩,
   [.setExtensions (serializeExtensionsMap m)])

/-- Embedding of `get_extension_groups_map`. -/
def get_extension_groups_map (s : Store) : ExtensionGroupsMap × List Event :=
  (loadGroupsValue (s.extensionGroups.getD (.obj [])), [.getGroups])

/-- Embedding of `get_extension_group_by_name`: normalize the name and look
the group up directly. -/
def get_extension_group_by_name (name : String) (s : Store) :
    Option ExtensionGroup × List Event :=
  let r := get_extension_groups_map s
  (lookupKey (name_to_key name) r.1, r.2)

/-- Embedding of `set_extension_enabled`: load, set the flag of a present
key and save, or fall through without saving when the key is absent. -/
def set_extension_enabled (ps : List (String × PlatformExtensionDef)) (key : String)
    (enabled : Bool) (s : Store) : Store × List Event :=
  let r := get_extensions_map ps s
  match lookupKey key r.1 with
  | some e =>
      let m1 := setKey key ⟨enabled, e.config⟩ r.1
      let r1 := save_extensions_map m1 s
      (r1.1, r.2 ++ r1.2)
  | none => (s, r.2)

/-- Embedding of `is_extension_enabled`: read-only, false for an absent key. -/
def is_extension_enabled (ps : List (String × PlatformExtensionDef)) (key : String)
    (s : Store) : Bool × List Event :=
  let r := get_extensions_map ps s
  (((lookupKey key r.1).map (fun e => e.enabled)).getD false, r.2)

/-- Member count and flag loop shared verbatim by `enable_extension_group`,
`disable_extension_group` and `set_extension_group_enabled`: walk the
member keys in order, flip each present entry whose flag differs from the
target, and report whether anything changed. -/
def setKeysEnabled (keys : List String) (val : Bool) (m : ExtensionsMap) :
    ExtensionsMap × Bool :=
  match keys with
  | [] => (m, false)
  | k :: rest =>
      match lookupKey k m with
      | some e =>
          if e.enabled ≠ val then
            ((setKeysEnabled rest val (setKey k ⟨val, e.config⟩ m)).1, true)
          else setKeysEnabled rest val m
      | none => setKeysEnabled rest val m

/-- Embedding of `get_extension_group_state`: resolve the group by name,
load the extensions map, and aggregate the member flags. -/
def get_extension_group_state (ps : List (String × PlatformExtensionDef))
    (group_name : String) (s : Store) : Option ExtensionGroupState × List Event :=
  let rg := get_extension_group_by_name group_name s
  match rg.1 with
  | none => (none, rg.2)
  | some g =>
      let re := get_extensions_map ps s
      if g.extension_keys.isEmpty then (some .Disabled, rg.2 ++ re.2)
      else
        let enabledCount :=
          (g.extension_keys.filter fun k =>
            ((lookupKey k re.1).map (fun e => e.enabled)).getD false).length
        let totalCount := g.extension_keys.length
        if enabledCount = 0 then (some .Disabled, rg.2 ++ re.2)
        else if enabledCount = totalCount then (some .Enabled, rg.2 ++ re.2)
        else (some .Mixed, rg.2 ++ re.2)

/-- Embedding of `enable_extension_group`: not-found error for an unknown
name, otherwise enable every present member and save only when modified. -/
def enable_extension_group (ps : List (String × PlatformExtensionDef))
    (group_name : String) (s : Store) : Except String Unit × Store × List Event :=
  let rg := get_extension_group_by_name group_name s
  match rg.1 with
  | none =>
      (.error ("Extension group '" ++ group_name ++ "' not found"), s, rg.2)
  | some g =>
      let re := get_extensions_map ps s
      let p := setKeysEnabled g.extension_keys true re.1
      if p.2 then
        let rs := save_extensions_map p.1 s
        (.ok (), rs.1, rg.2 ++ re.2 ++ rs.2)
      else (.ok (), s, rg.2 ++ re.2)

/-- Embedding of `disable_extension_group`: symmetric to enabling. -/
def disable_extension_group (ps : List (String × PlatformExtensionDef))
    (group_name : String) (s : Store) : Except String Unit × Store × List Event :=
  let rg := get_extension_group_by_name group_name s
  match rg.1 with
  | none =>
      (.error ("Extension group '" ++ group_name ++ "' not found"), s, rg.2)
  | some g =>
      let re := get_extensions_map ps s
      let p := setKeysEnabled g.extension_keys false re.1
      if p.2 then
        let rs := save_extensions_map p.1 s
        (.ok (), rs.1, rg.2 ++ re.2 ++ rs.2)
      else (.ok (), s, rg.2 ++ re.2)

/-- Embedding of `set_extension_group_enabled`: direct group-key lookup,
silent no-op when absent, otherwise set every present member to the target
value and save only when modified. -/
def set_extension_group_enabled (ps : List (String × PlatformExtensionDef))
    (key : String) (enabled : Bool) (s : Store) : Store × List Event :=
  let rg := get_extension_groups_map s
  match lookupKey key rg.1 with
  | none => (s, rg.2)
  | some g =>
      let re := get_extensions_map ps s
      let p := setKeysEnabled g.extension_keys enabled re.1
      if p.2 then
        let rs := save_extensions_map p.1 s
        (rs.1, rg.2 ++ re.2 ++ rs.2)
      else (s, rg.2 ++ re.2)

/-- Embedding of `is_extension_group_enabled`: false for an absent group
key, otherwise true only when every member key is present and enabled. -/
def is_extension_group_enabled (ps : List (String × PlatformExtensionDef))
    (key : String) (s : Store) : Bool × List Event :=
  let rg := get_extension_groups_map s
  match lookupKey key rg.1 with
  | none => (false, rg.2)
  | some g =>
      let re := get_extensions_map ps s
      (g.extension_keys.all fun k =>
        ((lookupKey k re.1).map (fun e => e.enabled)).getD false, rg.2 ++ re.2)

theorem lookupKey_setKey_self {α : Type} (k : String) (v : α) (m : List (String × α)) :
    lookupKey k (setKey k v m) = (lookupKey k m).map (fun _ => v) := by
  induction m with
  | nil => simp [lookupKey, setKey]
  | cons p rest ih =>
      obtain ⟨k1, v1⟩ := p
      by_cases h : k1 = k
      · simp [setKey, lookupKey, h]
      · simp [setKey, lookupKey, h, ih]

theorem lookupKey_setKey_ne {α : Type} (k k1 : String) (v : α) (m : List (String × α))
    (h : k1 ≠ k) : lookupKey k1 (setKey k v m) = lookupKey k1 m := by
  induction m with
  | nil => simp [setKey]
  | cons p rest ih =>
      obtain ⟨k2, v2⟩ := p
      by_cases h2 : k2 = k
      · subst h2
        simp [setKey, lookupKey, Ne.symm h]
      · simp [setKey, lookupKey, h2, ih]

theorem lookupKey_append {α : Type} (k : String) (m1 m2 : List (String × α)) :
    lookupKey k (m1 ++ m2) = ((lookupKey k m1).or (lookupKey k m2)) := by
  induction m1 with
  | nil => simp [lookupKey]
  | cons p rest ih =>
      obtain ⟨k1, v1⟩ := p
      by_cases h : k1 = k
      · simp [lookupKey, h]
      · simp [lookupKey, h, ih]

theorem lookupKey_insertKey_self {α : Type} (k : String) (v : α) (m : List (String × α)) :
    lookupKey k (insertKey k v m) = some v := by
  unfold insertKey
  by_cases h : (lookupKey k m).isSome
  · rw [if_pos h, lookupKey_setKey_self]
    obtain ⟨w, hw⟩ := Option.isSome_iff_exists.mp h
    simp [hw]
  · rw [if_neg h, lookupKey_append]
    rw [Option.not_isSome_iff_eq_none] at h
    simp [h, lookupKey]

theorem lookupKey_insertKey_ne {α : Type} (k k1 : String) (v : α) (m : List (String × α))
    (h : k1 ≠ k) : lookupKey k1 (insertKey k v m) = lookupKey k1 m := by
  unfold insertKey
  by_cases hs : (lookupKey k m).isSome
  · rw [if_pos hs, lookupKey_setKey_ne _ _ _ _ h]
  · rw [if_neg hs, lookupKey_append]
    have hnone : lookupKey k1 [(k, v)] = none := by
      simp [lookupKey, Ne.symm h]
    rw [hnone]
    cases lookupKey k1 m <;> rfl

theorem lookupKey_eq_none_of_not_mem {α : Type} (k : String) (m : List (String × α))
    (h : k ∉ m.map Prod.fst) : lookupKey k m = none := by
  induction m with
  | nil => rfl
  | cons p rest ih =>
      obtain ⟨k1, v1⟩ := p
      rw [List.map_cons, List.mem_cons] at h
      push_neg at h
      simp only [lookupKey, if_neg (Ne.symm h.1)]
      exact ih h.2

theorem lookupKey_of_mem_nodup {α : Type} (k : String) (v : α) (m : List (String × α))
    (hnd : (m.map Prod.fst).Nodup) (hmem : (k, v) ∈ m) : lookupKey k m = some v := by
  induction m with
  | nil => cases hmem
  | cons p rest ih =>
      obtain ⟨k1, v1⟩ := p
      rw [List.map_cons, List.nodup_cons] at hnd
      rcases List.mem_cons.mp hmem with h | h
      · injection h with h1 h2
        subst h1
        subst h2
        simp [lookupKey]
      · have hk : ¬k1 = k := by
          intro hh
          apply hnd.1
          rw [hh]
          simpa using List.mem_map_of_mem Prod.fst h
        simp only [lookupKey, if_neg hk]
        exact ih hnd.2 h

theorem lookupKey_map_snd {α β : Type} (k : String) (f : α → β) (m : List (String × α)) :
    lookupKey k (m.map fun p => (p.1, f p.2)) = (lookupKey k m).map f := by
  induction m with
  | nil => rfl
  | cons p rest ih =>
      obtain ⟨k1, v1⟩ := p
      by_cases h : k1 = k
      · simp [lookupKey, h]
      · simp [lookupKey, h, ih]

theorem setKeysEnabled_lookup (keys : List String) (val : Bool) (m : ExtensionsMap)
    (k : String) :
    lookupKey k (setKeysEnabled keys val m).1 =
      if k ∈ keys then (lookupKey k m).map (fun e => ⟨val, e.config⟩)
      else lookupKey k m := by
  induction keys generalizing m with
  | nil => simp [setKeysEnabled]
  | cons k1 rest ih =>
      by_cases hk : k = k1
      · subst hk
        cases hm : lookupKey k m with
        | none =>
            simp only [setKeysEnabled, hm]
            rw [ih]
            by_cases hr : k ∈ rest <;> simp [hr, hm]
        | some e =>
            by_cases he : e.enabled = val
            · have hne : ¬(e.enabled ≠ val) := by simp [he]
              simp only [setKeysEnabled, hm, if_neg hne]
              rw [ih]
              have hee : (⟨val, e.config⟩ : ExtensionEntry) = e := by
                cases e
                simp at he
                simp [he]
              by_cases hr : k ∈ rest <;> simp [hr, hm, hee]
            · simp only [setKeysEnabled, hm, if_pos he]
              rw [ih]
              have hm2 : lookupKey k (setKey k ⟨val, e.config⟩ m) =
                  some ⟨val, e.config⟩ := by
                rw [lookupKey_setKey_self]
                simp [hm]
              by_cases hr : k ∈ rest <;> simp [hr, hm2, hm]
      · cases hm : lookupKey k1 m with
        | none =>
            simp only [setKeysEnabled, hm]
            rw [ih]
            simp [hk]
        | some e =>
            by_cases he : e.enabled ≠ val
            · simp only [setKeysEnabled, hm, if_pos he]
              rw [ih, lookupKey_setKey_ne _ _ _ _ hk]
              simp [hk]
            · simp only [setKeysEnabled, hm, if_neg he]
              rw [ih]
              simp [hk]

theorem setKeysEnabled_modified_iff (keys : List String) (val : Bool) (m : ExtensionsMap) :
    (setKeysEnabled keys val m).2 = false ↔
      ∀ k ∈ keys, ∀ e, lookupKey k m = some e → e.enabled = val := by
  induction keys generalizing m with
  | nil => simp [setKeysEnabled]
  | cons k1 rest ih =>
      cases hm : lookupKey k1 m with
      | none =>
          simp only [setKeysEnabled, hm]
          rw [ih]
          constructor
          · intro h k hk e he
            rcases List.mem_cons.mp hk with rfl | hk2
            · rw [hm] at he
              cases he
            · exact h k hk2 e he
          · intro h k hk e he
            exact h k (List.mem_cons_of_mem _ hk) e he
      | some e =>
          by_cases he : e.enabled = val
          · have hne : ¬(e.enabled ≠ val) := by simp [he]
            simp only [setKeysEnabled, hm, if_neg hne]
            rw [ih]
            constructor
            · intro h k hk e1 he1
              rcases List.mem_cons.mp hk with rfl | hk2
              · rw [hm] at he1
                cases he1
                exact he
              · exact h k hk2 e1 he1
            · intro h k hk e1 he1
              exact h k (List.mem_cons_of_mem _ hk) e1 he1
          · simp only [setKeysEnabled, hm, if_pos he]
            constructor
            · intro h
              cases h
            · intro h
              exact absurd (h k1 (List.mem_cons_self _ _) e hm) he

theorem mergePlatformAux_lookup (ps : List (String × PlatformExtensionDef))
    (m : ExtensionsMap) (k : String) :
    lookupKey k (mergePlatformAux ps m) =
      ((lookupKey k m).or ((lookupKey k ps).map platformEntry)) := by
  induction ps generalizing m with
  | nil => cases hm : lookupKey k m <;> simp [mergePlatformAux, lookupKey, hm]
  | cons p rest ih =>
      obtain ⟨nm, pd⟩ := p
      by_cases hs : (lookupKey nm m).isSome
      · simp only [mergePlatformAux, if_pos hs]
        rw [ih]
        by_cases hk : nm = k
        · subst hk
          obtain ⟨w, hw⟩ := Option.isSome_iff_exists.mp hs
          simp [hw, lookupKey]
        · simp [lookupKey, hk]
      · simp only [mergePlatformAux, if_neg hs]
        rw [ih]
        rw [Option.not_isSome_iff_eq_none] at hs
        by_cases hk : nm = k
        · subst hk
          rw [lookupKey_insertKey_self, hs]
          simp [lookupKey]
        · rw [lookupKey_insertKey_ne _ _ _ _ (fun hh => hk hh.symm)]
          simp [lookupKey, hk]

theorem parseExtensionsObjAux_lookup (fields : List (String × Json)) :
    (fields.map Prod.fst).Nodup → ∀ (acc : ExtensionsMap) (k : String),
    lookupKey k (parseExtensionsObjAux fields acc) =
      (match lookupKey k fields with
       | some v =>
           (match parseEntryPatched v with
            | some e => some e
            | none => lookupKey k acc)
       | none => lookupKey k acc) := by
  induction fields with
  | nil =>
      intro _ acc k
      simp [parseExtensionsObjAux, lookupKey]
  | cons p rest ih =>
      obtain ⟨k1, v1⟩ := p
      intro hnd acc k
      rw [List.map_cons, List.nodup_cons] at hnd
      by_cases hk : k1 = k
      · subst hk
        have hrest : lookupKey k1 rest = none :=
          lookupKey_eq_none_of_not_mem _ _ hnd.1
        cases hp : parseEntryPatched v1 with
        | some e =>
            simp only [parseExtensionsObjAux, hp]
            rw [ih hnd.2]
            simp [lookupKey, hrest, hp, lookupKey_insertKey_self]
        | none =>
            simp only [parseExtensionsObjAux, hp]
            rw [ih hnd.2]
            simp [lookupKey, hrest, hp]
      · cases hp : parseEntryPatched v1 with
        | some e =>
            simp only [parseExtensionsObjAux, hp]
            rw [ih hnd.2]
            simp only [lookupKey, if_neg hk]
            rw [lookupKey_insertKey_ne _ _ _ _ (fun hh => hk hh.symm)]
        | none =>
            simp only [parseExtensionsObjAux, hp]
            rw [ih hnd.2]
            simp only [lookupKey, if_neg hk]

/-- Entry after the loader's description default: a config missing its
description gains the empty string, all other entries are unchanged. -/
def applyDescriptionDefault (e : ExtensionEntry) : ExtensionEntry :=
  ⟨e.enabled,
   match e.config with
   | .Custom n none => .Custom n (some "")
   | c => c⟩

theorem strElems_map_str (l : List String) :
    strElems (l.map Json.str) = some l := by
  induction l with
  | nil => rfl
  | cons x rest ih => simp [strElems, asStrElem, ih]

theorem parse_serializeEntry (e : ExtensionEntry) :
    parseEntryPatched (serializeEntry e) = some (applyDescriptionDefault e) := by
  obtain ⟨b, c⟩ := e
  cases c with
  | Platform n d bu tools =>
      cases bu with
      | none =>
          simp [parseEntryPatched, serializeEntry, serializeConfigFields,
            patchDescription, lookupKey, parseEntry, asBool, asStr, asOptBool,
            asStrList, strElems_map_str, applyDescriptionDefault]
      | some x =>
          simp [parseEntryPatched, serializeEntry, serializeConfigFields,
            patchDescription, lookupKey, parseEntry, asBool, asStr, asOptBool,
            asStrList, strElems_map_str, applyDescriptionDefault]
  | Custom n d =>
      cases d with
      | none =>
          simp [parseEntryPatched, serializeEntry, serializeConfigFields,
            patchDescription, lookupKey, insertKey, parseEntry, asBool, asStr,
            asOptStr, applyDescriptionDefault]
      | some s =>
          simp [parseEntryPatched, serializeEntry, serializeConfigFields,
            patchDescription, lookupKey, parseEntry, asBool, asStr,
            asOptStr, applyDescriptionDefault]

theorem parseExtensionsObjAux_serialized (m : ExtensionsMap) :
    (m.map Prod.fst).Nodup → ∀ (acc : ExtensionsMap),
    (∀ k ∈ m.map Prod.fst, lookupKey k acc = none) →
    parseExtensionsObjAux (m.map fun p => (p.1, serializeEntry p.2)) acc =
      acc ++ m.map (fun p => (p.1, applyDescriptionDefault p.2)) := by
  induction m with
  | nil =>
      intro _ acc _
      simp [parseExtensionsObjAux]
  | cons p rest ih =>
      obtain ⟨k1, e1⟩ := p
      intro hnd acc hdisj
      rw [List.map_cons, List.nodup_cons] at hnd
      have hacc : lookupKey k1 acc = none := hdisj k1 (by simp)
      have hins : insertKey k1 (applyDescriptionDefault e1) acc =
          acc ++ [(k1, applyDescriptionDefault e1)] := by
        unfold insertKey
        rw [hacc]
        rfl
      simp only [List.map_cons, parseExtensionsObjAux, parse_serializeEntry]
      rw [hins]
      rw [ih hnd.2 (acc ++ [(k1, applyDescriptionDefault e1)]) ?_]
      · rw [List.append_assoc]
        rfl
      · intro k hk
        rw [lookupKey_append]
        have hne : ¬k1 = k := by
          intro hh
          exact hnd.1 (hh ▸ hk)
        have h1 : lookupKey k acc = none := hdisj k (by simp [hk])
        have h2 : lookupKey k [(k1, applyDescriptionDefault e1)] = none := by
          simp [lookupKey, hne]
        rw [h1, h2]
        rfl

/-- Claim C4: `name_to_key` is idempotent — normalizing twice equals normalizing
once — and its result contains no whitespace character and no upper-case
character (entirely lower-case); the function is a pure total Lean
function, so it is deterministic with no error conditions. -/
theorem name_to_key_spec (s : String) :
    name_to_key (name_to_key s) = name_to_key s ∧
    (∀ c ∈ (name_to_key s).data, c.isWhitespace = false) ∧
    (∀ c ∈ (name_to_key s).data, c.isUpper = false) := by
  have hdata : (name_to_key s).data =
      (s.data.filter fun c => !c.isWhitespace).map Char.toLower := rfl
  have hws : ∀ c ∈ (name_to_key s).data, c.isWhitespace = false := by
    intro c hc
    rw [hdata] at hc
    obtain ⟨c0, hc0, rfl⟩ := List.mem_map.mp hc
    apply toLower_isWhitespace
    have h2 := (List.mem_filter.mp hc0).2
    simpa using h2
  have hup : ∀ c ∈ (name_to_key s).data, c.isUpper = false := by
    intro c hc
    rw [hdata] at hc
    obtain ⟨c0, hc0, rfl⟩ := List.mem_map.mp hc
    exact toLower_isUpper c0
  refine ⟨?_, hws, hup⟩
  show String.mk (((name_to_key s).data.filter fun c => !c.isWhitespace).map Char.toLower) =
    name_to_key s
  have hfil : ((name_to_key s).data.filter fun c => !c.isWhitespace) =
      (name_to_key s).data := by
    apply List.filter_eq_self.mpr
    intro c hc
    simp [hws c hc]
  rw [hfil]
  have hmap : (name_to_key s).data.map Char.toLower = (name_to_key s).data := by
    rw [hdata, List.map_map]
    apply List.map_congr_left
    intro c _
    exact toLower_toLower c
  rw [hmap]

theorem name_to_key_spec_witness :
    name_to_key "Ext One" = "extone" ∧
    name_to_key (name_to_key "Ext One") = name_to_key "Ext One" :=
  ⟨rfl, (name_to_key_spec "Ext One").1⟩

/-- Claim C1: the load of the extensions map injects platform extensions exactly
when the map parsed from the store is non-empty — an empty parsed map loads
to the empty map with nothing injected; a non-empty parsed map receives,
for every platform extension whose key it does not contain, a synthesized
entry with `enabled = true`, the platform name and description, the
`bundled = true` marker and an empty tool list, while every parsed entry is
kept unchanged. -/
theorem platform_merge_iff_nonempty (ps : List (String × PlatformExtensionDef))
    (raw : Json) (hnd : (ps.map Prod.fst).Nodup) :
    (baseExtensionsMap raw = [] → loadExtensionsValue ps raw = []) ∧
    (baseExtensionsMap raw ≠ [] →
      (∀ nm pd, (nm, pd) ∈ ps → lookupKey nm (baseExtensionsMap raw) = none →
        lookupKey nm (loadExtensionsValue ps raw) =
          some ⟨true, .Platform pd.name pd.description (some true) []⟩) ∧
      (∀ k e, lookupKey k (baseExtensionsMap raw) = some e →
        lookupKey k (loadExtensionsValue ps raw) = some e)) := by
  constructor
  · intro h
    simp [loadExtensionsValue, mergePlatform, h]
  · intro h
    have hne : (baseExtensionsMap raw).isEmpty = false := by
      cases hb : baseExtensionsMap raw with
      | nil => exact absurd hb h
      | cons a l => simp [List.isEmpty]
    constructor
    · intro nm pd hmem habs
      have hload : loadExtensionsValue ps raw = mergePlatformAux ps (baseExtensionsMap raw) := by
        simp [loadExtensionsValue, mergePlatform, hne]
      rw [hload, mergePlatformAux_lookup, habs, lookupKey_of_mem_nodup nm pd ps hnd hmem]
      rfl
    · intro k e hk
      have hload : loadExtensionsValue ps raw = mergePlatformAux ps (baseExtensionsMap raw) := by
        simp [loadExtensionsValue, mergePlatform, hne]
      rw [hload, mergePlatformAux_lookup, hk]
      rfl

/-- Concrete platform registry used by witnesses. -/
def psW : List (String × PlatformExtensionDef) :=
  [("developer", ⟨"Developer", "developer tools"⟩), ("todo", ⟨"Todo", "todo list"⟩)]

/-- Concrete stored extensions object holding one well-formed custom entry. -/
def oneEntryFields : List (String × Json) :=
  [("myext", .obj [("enabled", .bool false), ("type", .str "custom"),
    ("name", .str "MyExt")])]

theorem platform_merge_iff_nonempty_witness :
    (psW.map Prod.fst).Nodup ∧
    loadExtensionsValue psW (.obj []) = [] ∧
    lookupKey "developer" (loadExtensionsValue psW (.obj oneEntryFields)) =
      some ⟨true, .Platform "Developer" "developer tools" (some true) []⟩ := by
  refine ⟨by decide, ?_, ?_⟩
  · exact (platform_merge_iff_nonempty psW (.obj []) (by decide)).1 rfl
  · exact ((platform_merge_iff_nonempty psW (.obj oneEntryFields) (by decide)).2
      (by intro hh; cases hh)).1 "developer" ⟨"Developer", "developer tools"⟩
      (by simp [psW]) rfl

/-- Claim C3: each key/value pair of a stored extensions object is parsed
independently — the loaded pre-merge map holds, at each stored key, exactly
the successfully parsed entry, and holds nothing at a key whose value fails
to parse, so a malformed pair never invalidates the rest and no failure is
raised (the load is a total function into a map, not a result type). -/
theorem tolerant_parse (fields : List (String × Json))
    (hnd : (fields.map Prod.fst).Nodup) (k : String) :
    lookupKey k (baseExtensionsMap (.obj fields)) =
      (lookupKey k fields).bind parseEntryPatched := by
  show lookupKey k (parseExtensionsObjAux fields []) = _
  rw [parseExtensionsObjAux_lookup fields hnd [] k]
  cases hf : lookupKey k fields with
  | none => rfl
  | some v =>
      cases hp : parseEntryPatched v with
      | none => simp [hp, lookupKey]
      | some e => simp [hp]

/-- Concrete stored extensions object holding one well-formed entry and one
malformed entry (its `enabled` field is a string). -/
def mixedFields : List (String × Json) :=
  [("good", .obj [("enabled", .bool true), ("type", .str "custom"),
    ("name", .str "Good")]),
   ("bad", .obj [("enabled", .str "yes"), ("type", .str "custom"),
    ("name", .str "Bad")])]

theorem tolerant_parse_witness :
    (mixedFields.map Prod.fst).Nodup ∧
    lookupKey "good" (baseExtensionsMap (.obj mixedFields)) =
      (lookupKey "good" mixedFields).bind parseEntryPatched ∧
    lookupKey "bad" (baseExtensionsMap (.obj mixedFields)) =
      (lookupKey "bad" mixedFields).bind parseEntryPatched ∧
    baseExtensionsMap (.obj mixedFields) =
      [("good", ⟨true, .Custom "Good" (some "")⟩)] :=
  ⟨by decide, tolerant_parse mixedFields (by decide) "good",
   tolerant_parse mixedFields (by decide) "bad", rfl⟩

/-- Claim C2: for every group name, `get_extension_group_state` returns `none`
when no group with the normalized name exists; returns `Disabled` when the
group's member list is empty; and otherwise, counting members whose key is
present in the extensions map with `enabled = true` (an absent member key
counts as not-enabled), returns `Disabled` when the count is zero,
`Enabled` when it equals the member count, and `Mixed` otherwise. -/
theorem get_extension_group_state_spec (ps : List (String × PlatformExtensionDef))
    (group_name : String) (s : Store) :
    (lookupKey (name_to_key group_name) (get_extension_groups_map s).1 = none →
      (get_extension_group_state ps group_name s).1 = none) ∧
    (∀ g, lookupKey (name_to_key group_name) (get_extension_groups_map s).1 = some g →
      (g.extension_keys = [] →
        (get_extension_group_state ps group_name s).1 = some .Disabled) ∧
      (g.extension_keys ≠ [] →
        ((g.extension_keys.countP fun k =>
            ((lookupKey k (get_extensions_map ps s).1).map (fun e => e.enabled)).getD false) = 0 →
          (get_extension_group_state ps group_name s).1 = some .Disabled) ∧
        ((g.extension_keys.countP fun k =>
            ((lookupKey k (get_extensions_map ps s).1).map (fun e => e.enabled)).getD false) =
              g.extension_keys.length →
          (get_extension_group_state ps group_name s).1 = some .Enabled) ∧
        ((g.extension_keys.countP fun k =>
            ((lookupKey k (get_extensions_map ps s).1).map (fun e => e.enabled)).getD false) ≠ 0 →
          (g.extension_keys.countP fun k =>
            ((lookupKey k (get_extensions_map ps s).1).map (fun e => e.enabled)).getD false) ≠
              g.extension_keys.length →
          (get_extension_group_state ps group_name s).1 = some .Mixed))) := by
  constructor
  · intro h
    simp only [get_extension_group_state, get_extension_group_by_name]
    rw [h]
  · intro g hg
    constructor
    · intro hkeys
      simp only [get_extension_group_state, get_extension_group_by_name]
      rw [hg]
      simp [hkeys]
    · intro hne
      have hie : g.extension_keys.isEmpty = false := by
        cases hk : g.extension_keys with
        | nil => exact absurd hk hne
        | cons a l => simp [List.isEmpty]
      refine ⟨?_, ?_, ?_⟩
      · intro hc
        rw [List.countP_eq_length_filter] at hc
        simp only [get_extension_group_state, get_extension_group_by_name]
        rw [hg]
        simp [hie, hc]
      · intro hc
        rw [List.countP_eq_length_filter] at hc
        have h0 : (g.extension_keys.filter fun k =>
            ((lookupKey k (get_extensions_map ps s).1).map (fun e => e.enabled)).getD false).length ≠ 0 := by
          rw [hc]
          intro hh
          exact hne (List.length_eq_zero.mp hh)
        simp only [get_extension_group_state, get_extension_group_by_name]
        rw [hg]
        simp [hie, h0, hc, hne]
      · intro hc1 hc2
        rw [List.countP_eq_length_filter] at hc1 hc2
        simp only [get_extension_group_state, get_extension_group_by_name]
        rw [hg]
        simp [hie, hc1, hc2]

/-- Concrete store used by the group-state and group-toggle witnesses: one
group of two members, one enabled and one disabled extension. -/
def sW : Store :=
  ⟨some (.obj [("a", .obj [("enabled", .bool true), ("type", .str "custom"),
      ("name", .str "a")]),
    ("b", .obj [("enabled", .bool false), ("type", .str "custom"),
      ("name", .str "b")])]),
   some (.obj [("grp", .obj [("name", .str "Grp"),
      ("extension_keys", .arr [.str "a", .str "b"])])])⟩

theorem get_extension_group_state_spec_witness :
    lookupKey (name_to_key "Grp") (get_extension_groups_map sW).1 =
      some ⟨"Grp", ["a", "b"]⟩ ∧
    (get_extension_group_state psW "Grp" sW).1 = some .Mixed := by
  refine ⟨by rfl, ?_⟩
  exact ((((get_extension_group_state_spec psW "Grp" sW).2 ⟨"Grp", ["a", "b"]⟩
    (by rfl)).2 (by intro hh; cases hh)).2.2 (by decide) (by decide))

/-- Claim C6: toggling a key absent from the loaded extensions map is a no-op
that performs no save (the store is unchanged and the only event is the
read), and `is_extension_enabled` is false on every absent key; toggling a
present key sets that entry's enabled flag to the given value and saves the
map. -/
theorem set_extension_enabled_spec (ps : List (String × PlatformExtensionDef))
    (key : String) (b : Bool) (s : Store) :
    (lookupKey key (get_extensions_map ps s).1 = none →
      set_extension_enabled ps key b s = (s, [.getExtensions]) ∧
      (is_extension_enabled ps key s).1 = false) ∧
    (∀ e, lookupKey key (get_extensions_map ps s).1 = some e →
      set_extension_enabled ps key b s =
        (⟨some (serializeExtensionsMap
            (setKey key ⟨b, e.config⟩ (get_extensions_map ps s).1)),
          s.extensionGroups⟩,
         [.getExtensions, .setExtensions (serializeExtensionsMap
            (setKey key ⟨b, e.config⟩ (get_extensions_map ps s).1))]) ∧
      lookupKey key (setKey key ⟨b, e.config⟩ (get_extensions_map ps s).1) =
        some ⟨b, e.config⟩) := by
  constructor
  · intro h
    constructor
    · simp only [set_extension_enabled]
      rw [h]
      rfl
    · simp only [is_extension_enabled]
      rw [h]
      rfl
  · intro e h
    constructor
    · simp only [set_extension_enabled, save_extensions_map]
      rw [h]
      rfl
    · rw [lookupKey_setKey_self, h]
      rfl

theorem set_extension_enabled_spec_witness :
    lookupKey "missing" (get_extensions_map psW sW).1 = none ∧
    set_extension_enabled psW "missing" true sW = (sW, [.getExtensions]) ∧
    (is_extension_enabled psW "missing" sW).1 = false :=
  ⟨rfl, ((set_extension_enabled_spec psW "missing" true sW).1 rfl).1,
   ((set_extension_enabled_spec psW "missing" true sW).1 rfl).2⟩

/-- Claim C10: toggling a present key saves a map that differs from the loaded
map only at that key, and there only in the enabled flag — the entry keeps
its config, and every other key maps to its unchanged entry. -/
theorem set_extension_enabled_frame (ps : List (String × PlatformExtensionDef))
    (key : String) (b : Bool) (s : Store) (e : ExtensionEntry)
    (h : lookupKey key (get_extensions_map ps s).1 = some e) :
    ∃ m1, (set_extension_enabled ps key b s).2 =
        [.getExtensions, .setExtensions (serializeExtensionsMap m1)] ∧
      lookupKey key m1 = some ⟨b, e.config⟩ ∧
      ∀ k1, k1 ≠ key → lookupKey k1 m1 = lookupKey k1 (get_extensions_map ps s).1 := by
  refine ⟨setKey key ⟨b, e.config⟩ (get_extensions_map ps s).1, ?_, ?_, ?_⟩
  · simp only [set_extension_enabled, save_extensions_map]
    rw [h]
    rfl
  · rw [lookupKey_setKey_self, h]
    rfl
  · intro k1 hk1
    exact lookupKey_setKey_ne key k1 _ _ hk1

theorem set_extension_enabled_frame_witness :
    lookupKey "a" (get_extensions_map psW sW).1 = some ⟨true, .Custom "a" (some "")⟩ ∧
    ∃ m1, (set_extension_enabled psW "a" false sW).2 =
        [.getExtensions, .setExtensions (serializeExtensionsMap m1)] ∧
      lookupKey "a" m1 = some ⟨false, .Custom "a" (some "")⟩ ∧
      ∀ k1, k1 ≠ "a" → lookupKey k1 m1 = lookupKey k1 (get_extensions_map psW sW).1 :=
  ⟨rfl, set_extension_enabled_frame psW "a" false sW ⟨true, .Custom "a" (some "")⟩ rfl⟩

theorem setKeysEnabled_modified_exists (keys : List String) (val : Bool)
    (m : ExtensionsMap) (h : (setKeysEnabled keys val m).2 = true) :
    ∃ k ∈ keys, ∃ e, lookupKey k m = some e ∧ e.enabled ≠ val := by
  by_contra hno
  push_neg at hno
  have hall : ∀ k ∈ keys, ∀ e, lookupKey k m = some e → e.enabled = val := by
    intro k hk e he
    exact hno k hk e he
  rw [(setKeysEnabled_modified_iff keys val m).mpr hall] at h
  cases h

/-- Claim C5: enabling a group whose normalized name is unknown returns exactly
the error `Extension group '<name>' not found` having performed no read or
write of the extensions storage key; on a known group it succeeds, sets
`enabled = true` on every member key present in the loaded extensions map
(absent member keys are ignored and stay absent), performs no write at all
when every present member was already enabled, and otherwise performs the
single write of the updated map. -/
theorem enable_extension_group_spec (ps : List (String × PlatformExtensionDef))
    (group_name : String) (s : Store) :
    (lookupKey (name_to_key group_name) (get_extension_groups_map s).1 = none →
      enable_extension_group ps group_name s =
        (.error ("Extension group '" ++ group_name ++ "' not found"), s, [.getGroups])) ∧
    (∀ g, lookupKey (name_to_key group_name) (get_extension_groups_map s).1 = some g →
      (enable_extension_group ps group_name s).1 = .ok () ∧
      (∀ k e, k ∈ g.extension_keys →
        lookupKey k (get_extensions_map ps s).1 = some e →
        lookupKey k (setKeysEnabled g.extension_keys true (get_extensions_map ps s).1).1 =
          some ⟨true, e.config⟩) ∧
      (∀ k, lookupKey k (get_extensions_map ps s).1 = none →
        lookupKey k (setKeysEnabled g.extension_keys true (get_extensions_map ps s).1).1 =
          none) ∧
      ((∀ k ∈ g.extension_keys, ∀ e,
          lookupKey k (get_extensions_map ps s).1 = some e → e.enabled = true) →
        enable_extension_group ps group_name s =
          (.ok (), s, [.getGroups, .getExtensions])) ∧
      ((setKeysEnabled g.extension_keys true (get_extensions_map ps s).1).2 = true →
        enable_extension_group ps group_name s =
          (.ok (),
           ⟨some (serializeExtensionsMap
              (setKeysEnabled g.extension_keys true (get_extensions_map ps s).1).1),
            s.extensionGroups⟩,
           [.getGroups, .getExtensions,
            .setExtensions (serializeExtensionsMap
              (setKeysEnabled g.extension_keys true (get_extensions_map ps s).1).1)]))) := by
  constructor
  · intro h
    simp only [enable_extension_group, get_extension_group_by_name]
    rw [h]
    rfl
  · intro g hg
    refine ⟨?_, ?_, ?_, ?_, ?_⟩
    · simp only [enable_extension_group, get_extension_group_by_name]
      rw [hg]
      cases hp : (setKeysEnabled g.extension_keys true (get_extensions_map ps s).1).2 <;>
        simp [hp]
    · intro k e hk he
      rw [setKeysEnabled_lookup, if_pos hk, he]
      rfl
    · intro k hk
      rw [setKeysEnabled_lookup, hk]
      by_cases hm : k ∈ g.extension_keys <;> simp [hm]
    · intro hall
      have hmod := (setKeysEnabled_modified_iff g.extension_keys true
        (get_extensions_map ps s).1).mpr hall
      simp only [enable_extension_group, get_extension_group_by_name]
      rw [hg]
      simp only [hmod, Bool.false_eq_true, if_false]
      rfl
    · intro hmod
      simp only [enable_extension_group, get_extension_group_by_name, save_extensions_map]
      rw [hg]
      simp only [hmod, if_true]
      rfl

theorem enable_extension_group_spec_witness :
    lookupKey (name_to_key "missing") (get_extension_groups_map sW).1 = none ∧
    enable_extension_group psW "missing" sW =
      (.error ("Extension group 'missing' not found"), sW, [.getGroups]) :=
  ⟨rfl, (enable_extension_group_spec psW "missing" sW).1 rfl⟩

/-- Event selector for writes of the extensions storage key. -/
def isSetExtensions : Event → Bool
  | .setExtensions _ => true
  | _ => false

/-- Claim C9: `enable_extension_group`, `disable_extension_group` and
`set_extension_group_enabled` never write the extension-groups storage key
(no `setGroups` event, and the stored groups value is untouched); each
performs at most one write, of the extensions key only, and that write
happens only when some member entry's enabled flag actually changed. -/
theorem group_ops_frame (ps : List (String × PlatformExtensionDef))
    (group_name key : String) (b : Bool) (s : Store) :
    ((∀ v, Event.setGroups v ∉ (enable_extension_group ps group_name s).2.2) ∧
     (enable_extension_group ps group_name s).2.1.extensionGroups = s.extensionGroups ∧
     ((enable_extension_group ps group_name s).2.2.countP isSetExtensions) ≤ 1 ∧
     ((∃ v, Event.setExtensions v ∈ (enable_extension_group ps group_name s).2.2) →
       ∃ g, lookupKey (name_to_key group_name) (get_extension_groups_map s).1 = some g ∧
         ∃ k ∈ g.extension_keys, ∃ e,
           lookupKey k (get_extensions_map ps s).1 = some e ∧ e.enabled ≠ true)) ∧
    ((∀ v, Event.setGroups v ∉ (disable_extension_group ps group_name s).2.2) ∧
     (disable_extension_group ps group_name s).2.1.extensionGroups = s.extensionGroups ∧
     ((disable_extension_group ps group_name s).2.2.countP isSetExtensions) ≤ 1 ∧
     ((∃ v, Event.setExtensions v ∈ (disable_extension_group ps group_name s).2.2) →
       ∃ g, lookupKey (name_to_key group_name) (get_extension_groups_map s).1 = some g ∧
         ∃ k ∈ g.extension_keys, ∃ e,
           lookupKey k (get_extensions_map ps s).1 = some e ∧ e.enabled ≠ false)) ∧
    ((∀ v, Event.setGroups v ∉ (set_extension_group_enabled ps key b s).2) ∧
     (set_extension_group_enabled ps key b s).1.extensionGroups = s.extensionGroups ∧
     ((set_extension_group_enabled ps key b s).2.countP isSetExtensions) ≤ 1 ∧
     ((∃ v, Event.setExtensions v ∈ (set_extension_group_enabled ps key b s).2) →
       ∃ g, lookupKey key (get_extension_groups_map s).1 = some g ∧
         ∃ k ∈ g.extension_keys, ∃ e,
           lookupKey k (get_extensions_map ps s).1 = some e ∧ e.enabled ≠ b)) := by
  refine ⟨?_, ?_, ?_⟩
  · cases hg : lookupKey (name_to_key group_name) (get_extension_groups_map s).1 with
    | none =>
        have hop : enable_extension_group ps group_name s =
            (.error ("Extension group '" ++ group_name ++ "' not found"), s,
             [.getGroups]) := by
          simp only [enable_extension_group, get_extension_group_by_name]
          rw [hg]
          rfl
        rw [hop]
        refine ⟨?_, rfl, ?_, ?_⟩
        · intro v hv
          simp at hv
        · simp [List.countP_cons, isSetExtensions]
        · rintro ⟨v, hv⟩
          simp at hv
    | some g =>
        cases hp : (setKeysEnabled g.extension_keys true (get_extensions_map ps s).1).2 with
        | false =>
            have hop : enable_extension_group ps group_name s =
                (.ok (), s, [.getGroups, .getExtensions]) := by
              simp only [enable_extension_group, get_extension_group_by_name]
              rw [hg]
              simp only [hp, Bool.false_eq_true, if_false]
              rfl
            rw [hop]
            refine ⟨?_, rfl, ?_, ?_⟩
            · intro v hv
              simp at hv
            · simp [List.countP_cons, isSetExtensions]
            · rintro ⟨v, hv⟩
              simp at hv
        | true =>
            have hop : enable_extension_group ps group_name s =
                (.ok (),
                 ⟨some (serializeExtensionsMap
                    (setKeysEnabled g.extension_keys true (get_extensions_map ps s).1).1),
                  s.extensionGroups⟩,
                 [.getGroups, .getExtensions,
                  .setExtensions (serializeExtensionsMap
                    (setKeysEnabled g.extension_keys true (get_extensions_map ps s).1).1)]) := by
              simp only [enable_extension_group, get_extension_group_by_name,
                save_extensions_map]
              rw [hg]
              simp only [hp, if_true]
              rfl
            rw [hop]
            refine ⟨?_, rfl, ?_, ?_⟩
            · intro v hv
              simp at hv
            · simp [List.countP_cons, isSetExtensions]
            · intro _
              exact ⟨g, rfl, setKeysEnabled_modified_exists _ _ _ hp⟩
  · cases hg : lookupKey (name_to_key group_name) (get_extension_groups_map s).1 with
    | none =>
        have hop : disable_extension_group ps group_name s =
            (.error ("Extension group '" ++ group_name ++ "' not found"), s,
             [.getGroups]) := by
          simp only [disable_extension_group, get_extension_group_by_name]
          rw [hg]
          rfl
        rw [hop]
        refine ⟨?_, rfl, ?_, ?_⟩
        · intro v hv
          simp at hv
        · simp [List.countP_cons, isSetExtensions]
        · rintro ⟨v, hv⟩
          simp at hv
    | some g =>
        cases hp : (setKeysEnabled g.extension_keys false (get_extensions_map ps s).1).2 with
        | false =>
            have hop : disable_extension_group ps group_name s =
                (.ok (), s, [.getGroups, .getExtensions]) := by
              simp only [disable_extension_group, get_extension_group_by_name]
              rw [hg]
              simp only [hp, Bool.false_eq_true, if_false]
              rfl
            rw [hop]
            refine ⟨?_, rfl, ?_, ?_⟩
            · intro v hv
              simp at hv
            · simp [List.countP_cons, isSetExtensions]
            · rintro ⟨v, hv⟩
              simp at hv
        | true =>
            have hop : disable_extension_group ps group_name s =
                (.ok (),
                 ⟨some (serializeExtensionsMap
                    (setKeysEnabled g.extension_keys false (get_extensions_map ps s).1).1),
                  s.extensionGroups⟩,
                 [.getGroups, .getExtensions,
                  .setExtensions (serializeExtensionsMap
                    (setKeysEnabled g.extension_keys false (get_extensions_map ps s).1).1)]) := by
              simp only [disable_extension_group, get_extension_group_by_name,
                save_extensions_map]
              rw [hg]
              simp only [hp, if_true]
              rfl
            rw [hop]
            refine ⟨?_, rfl, ?_, ?_⟩
            · intro v hv
              simp at hv
            · simp [List.countP_cons, isSetExtensions]
            · intro _
              exact ⟨g, rfl, setKeysEnabled_modified_exists _ _ _ hp⟩
  · cases hg : lookupKey key (get_extension_groups_map s).1 with
    | none =>
        have hop : set_extension_group_enabled ps key b s = (s, [.getGroups]) := by
          simp only [set_extension_group_enabled]
          rw [hg]
          rfl
        rw [hop]
        refine ⟨?_, rfl, ?_, ?_⟩
        · intro v hv
          simp at hv
        · simp [List.countP_cons, isSetExtensions]
        · rintro ⟨v, hv⟩
          simp at hv
    | some g =>
        cases hp : (setKeysEnabled g.extension_keys b (get_extensions_map ps s).1).2 with
        | false =>
            have hop : set_extension_group_enabled ps key b s =
                (s, [.getGroups, .getExtensions]) := by
              simp only [set_extension_group_enabled]
              rw [hg]
              simp only [hp, Bool.false_eq_true, if_false]
              rfl
            rw [hop]
            refine ⟨?_, rfl, ?_, ?_⟩
            · intro v hv
              simp at hv
            · simp [List.countP_cons, isSetExtensions]
            · rintro ⟨v, hv⟩
              simp at hv
        | true =>
            have hop : set_extension_group_enabled ps key b s =
                (⟨some (serializeExtensionsMap
                    (setKeysEnabled g.extension_keys b (get_extensions_map ps s).1).1),
                  s.extensionGroups⟩,
                 [.getGroups, .getExtensions,
                  .setExtensions (serializeExtensionsMap
                    (setKeysEnabled g.extension_keys b (get_extensions_map ps s).1).1)]) := by
              simp only [set_extension_group_enabled, save_extensions_map]
              rw [hg]
              simp only [hp, if_true]
              rfl
            rw [hop]
            refine ⟨?_, rfl, ?_, ?_⟩
            · intro v hv
              simp at hv
            · simp [List.countP_cons, isSetExtensions]
            · intro _
              exact ⟨g, rfl, setKeysEnabled_modified_exists _ _ _ hp⟩

theorem group_ops_frame_witness :
    Event.setGroups Json.null ∉ (enable_extension_group psW "Grp" sW).2.2 ∧
    ∃ g, lookupKey (name_to_key "Grp") (get_extension_groups_map sW).1 = some g ∧
      ∃ k ∈ g.extension_keys, ∃ e,
        lookupKey k (get_extensions_map psW sW).1 = some e ∧ e.enabled ≠ true := by
  have hex : Event.setExtensions (serializeExtensionsMap
      (setKeysEnabled ["a", "b"] true (get_extensions_map psW sW).1).1) ∈
      (enable_extension_group psW "Grp" sW).2.2 :=
    List.Mem.tail _ (List.Mem.tail _ (List.Mem.head _))
  exact ⟨(group_ops_frame psW "Grp" "grp" true sW).1.1 Json.null,
    (group_ops_frame psW "Grp" "grp" true sW).1.2.2.2 ⟨_, hex⟩⟩

/-- Claim C7: saving a map `m` and loading it back yields `m` itself up to two
differences — every entry whose serialized config lacks a description gains
the empty-string default, and, when `m` is non-empty, every platform
extension whose key is absent from `m` is merged in as an enabled
synthesized entry; an empty `m` loads back as the empty map. -/
theorem save_load_round_trip (ps : List (String × PlatformExtensionDef))
    (m : ExtensionsMap) (hm : (m.map Prod.fst).Nodup) :
    (m = [] → loadExtensionsValue ps (serializeExtensionsMap m) = []) ∧
    (∀ k e, lookupKey k m = some e →
      lookupKey k (loadExtensionsValue ps (serializeExtensionsMap m)) =
        some (applyDescriptionDefault e)) ∧
    (m ≠ [] → ∀ nm pd, lookupKey nm m = none → lookupKey nm ps = some pd →
      lookupKey nm (loadExtensionsValue ps (serializeExtensionsMap m)) =
        some ⟨true, .Platform pd.name pd.description (some true) []⟩) ∧
    (∀ k, lookupKey k m = none → lookupKey k ps = none →
      lookupKey k (loadExtensionsValue ps (serializeExtensionsMap m)) = none) := by
  have hbase : baseExtensionsMap (serializeExtensionsMap m) =
      m.map (fun p => (p.1, applyDescriptionDefault p.2)) := by
    show parseExtensionsObjAux (m.map fun p => (p.1, serializeEntry p.2)) [] = _
    rw [parseExtensionsObjAux_serialized m hm [] (fun k _ => rfl)]
    rfl
  refine ⟨?_, ?_, ?_, ?_⟩
  · intro h
    subst h
    rfl
  · intro k e hk
    have hne : (m.map (fun p => (p.1, applyDescriptionDefault p.2))).isEmpty = false := by
      cases m with
      | nil => cases hk
      | cons a l => rfl
    simp only [loadExtensionsValue, hbase, mergePlatform, hne, Bool.false_eq_true, if_false]
    rw [mergePlatformAux_lookup, lookupKey_map_snd, hk]
    rfl
  · intro hm0 nm pd hnm hps
    have hne : (m.map (fun p => (p.1, applyDescriptionDefault p.2))).isEmpty = false := by
      cases m with
      | nil => exact absurd rfl hm0
      | cons a l => rfl
    simp only [loadExtensionsValue, hbase, mergePlatform, hne, Bool.false_eq_true, if_false]
    rw [mergePlatformAux_lookup, lookupKey_map_snd, hnm, hps]
    rfl
  · intro k hk hps
    cases hm0 : m with
    | nil =>
        subst hm0
        rfl
    | cons a l =>
        have hne : (m.map (fun p => (p.1, applyDescriptionDefault p.2))).isEmpty = false := by
          rw [hm0]
          rfl
        rw [← hm0] at *
        simp only [loadExtensionsValue, hbase, mergePlatform, hne, Bool.false_eq_true, if_false]
        rw [mergePlatformAux_lookup, lookupKey_map_snd, hk, hps]
        rfl

/-- Concrete map used by the round-trip witness: one custom entry lacking a
description, stored under a key distinct from every platform key. -/
def mW : ExtensionsMap := [("myext", ⟨false, .Custom "MyExt" none⟩)]

theorem save_load_round_trip_witness :
    (mW.map Prod.fst).Nodup ∧
    lookupKey "myext" (loadExtensionsValue psW (serializeExtensionsMap mW)) =
      some ⟨false, .Custom "MyExt" (some "")⟩ ∧
    lookupKey "developer" (loadExtensionsValue psW (serializeExtensionsMap mW)) =
      some ⟨true, .Platform "Developer" "developer tools" (some true) []⟩ := by
  refine ⟨by decide, ?_, ?_⟩
  · exact (save_load_round_trip psW mW (by decide)).2.1 "myext"
      ⟨false, .Custom "MyExt" none⟩ rfl
  · exact ((save_load_round_trip psW mW (by decide)).2.2.1
      (by intro hh; cases hh) "developer" ⟨"Developer", "developer tools"⟩ rfl rfl)

/-- Concrete store refuting C8 as stated: a group with no members is stored
under the key `g`, which differs from the normalized form of its own name
`other`. -/
def s8 : Store :=
  ⟨some (.obj []),
   some (.obj [("g", .obj [("name", .str "other"), ("extension_keys", .arr [])])])⟩

/-- Claim C8 counterexample: at the store `s8` the group key `g` holds an
empty-membered group named `other`, and `is_extension_group_enabled` on the
key returns `true` — but `get_extension_group_state` on that group's name
returns `none`, not `Disabled`, because the stored key is not the
normalized name. -/
theorem empty_group_counterexample :
    lookupKey "g" (get_extension_groups_map s8).1 = some ⟨"other", []⟩ ∧
    (is_extension_group_enabled psW "g" s8).1 = true ∧
    (get_extension_group_state psW "other" s8).1 = none := by
  refine ⟨rfl, rfl, rfl⟩

/-- Claim C8 amended: for every group stored under the canonical key of its own
name (the invariant every write path maintains) whose member list is empty,
`is_extension_group_enabled` on that key returns `true` (the all-members
check is vacuous) while `get_extension_group_state` on the group's name
returns `Disabled` — the two predicates disagree on empty groups. -/
theorem empty_group_amended (ps : List (String × PlatformExtensionDef))
    (g : ExtensionGroup) (s : Store)
    (h : lookupKey (name_to_key g.name) (get_extension_groups_map s).1 = some g)
    (hk : g.extension_keys = []) :
    (is_extension_group_enabled ps (name_to_key g.name) s).1 = true ∧
    (get_extension_group_state ps g.name s).1 = some .Disabled := by
  constructor
  · simp only [is_extension_group_enabled]
    rw [h]
    simp [hk]
  · simp only [get_extension_group_state, get_extension_group_by_name]
    rw [h]
    simp [hk]

/-- Concrete store for the amended C8: the empty group named `Grp` is
stored under its canonical key `grp`. -/
def s8b : Store :=
  ⟨some (.obj []),
   some (.obj [("grp", .obj [("name", .str "Grp"), ("extension_keys", .arr [])])])⟩

theorem empty_group_amended_witness :
    lookupKey (name_to_key "Grp") (get_extension_groups_map s8b).1 =
      some ⟨"Grp", []⟩ ∧
    (is_extension_group_enabled psW (name_to_key "Grp") s8b).1 = true ∧
    (get_extension_group_state psW "Grp" s8b).1 = some .Disabled :=
  ⟨rfl, empty_group_amended psW ⟨"Grp", []⟩ s8b rfl rfl⟩

end GooseExtensions
